import Mathlib

/-!
Verification of the Cloudflare worker proxy (`src/worker/proxy.js`).

The worker is a rewriting reverse proxy: it fetches a target URL, strips
frame-blocking headers, and rewrites resource references in HTML and CSS so
that they flow back through the proxy.  The definitions below are a shallow
embedding of the worker's functions; strings are modelled by Lean `String`
(a wrapper around `List Char`), JS regex replacement by explicit scanners
with the same match semantics, and the fallible environment (URL parsing,
upstream fetch) by explicit oracle parameters.
-/

/-- The worker's fixed proxy base endpoint (constant `PROXY_URL`). -/
def PROXY_URL : String := "https://tv-proxy.shariflii.workers.dev"

/-- Bytes left unescaped by JS `encodeURIComponent`:
`A-Z a-z 0-9 - _ . ! ~ * ' ( )`. -/
def uriUnreservedByte (b : Nat) : Bool :=
  (65 ≤ b && b ≤ 90) || (97 ≤ b && b ≤ 122) || (48 ≤ b && b ≤ 57) ||
  b = 45 || b = 95 || b = 46 || b = 33 || b = 126 || b = 42 ||
  b = 39 || b = 40 || b = 41

/-- Uppercase hexadecimal digit, as produced by `encodeURIComponent`. -/
def hexDigitChar (n : Nat) : Char :=
  if n < 10 then Char.ofNat (48 + n) else Char.ofNat (55 + n)

/-- Percent-escape a single UTF-8 byte unless it is unreserved. -/
def encByte (b : Nat) : List Char :=
  if uriUnreservedByte b then [Char.ofNat b]
  else ['%', hexDigitChar (b / 16), hexDigitChar (b % 16)]

/-- UTF-8 encoding of one Unicode scalar value, as a list of byte values. -/
def utf8BytesOfChar (c : Char) : List Nat :=
  if c.toNat < 128 then [c.toNat]
  else if c.toNat < 2048 then [192 + c.toNat / 64, 128 + c.toNat % 64]
  else if c.toNat < 65536 then
    [224 + c.toNat / 4096, 128 + (c.toNat / 64) % 64, 128 + c.toNat % 64]
  else
    [240 + c.toNat / 262144, 128 + (c.toNat / 4096) % 64, 128 + (c.toNat / 64) % 64,
     128 + c.toNat % 64]

/-- Character-list form of JS `encodeURIComponent`. -/
def encChars (s : List Char) : List Char :=
  s.flatMap (fun c => (utf8BytesOfChar c).flatMap encByte)

/-- JS `encodeURIComponent`. -/
def encodeURIComponent (s : String) : String := ⟨encChars s.toList⟩

/-- JS `String.prototype.startsWith`: a plain prefix test (written on the
underlying character lists so that it evaluates by kernel reduction). -/
def jsStartsWith (s pre : String) : Bool :=
  pre.toList.isPrefixOf s.toList

/-- `proxyUrl(originalUrl, baseUrl)` from the worker: resolve a possibly
relative reference against the base origin and wrap it as a proxied URL. -/
def proxyUrl (originalUrl baseUrl : String) : String :=
  let absolute :=
    if jsStartsWith originalUrl "//" then "https:" ++ originalUrl
    else if jsStartsWith originalUrl "/" then baseUrl ++ originalUrl
    else if jsStartsWith originalUrl "http" then originalUrl
    else baseUrl ++ "/" ++ originalUrl
  PROXY_URL ++ "/?url=" ++ encodeURIComponent absolute

/-- Modelled from the spec's words (section 4.1, URL Resolver): the four-case
priority policy for turning a reference plus base origin into an absolute
URL.  Kept separate from `proxyUrl`, which is translated from the source, so
the two can be compared. -/
def resolveSpec (reference baseOrigin : String) : String :=
  if jsStartsWith reference "//" then "https:" ++ reference
  else if jsStartsWith reference "/" then baseOrigin ++ reference
  else if jsStartsWith reference "http" then reference
  else baseOrigin ++ "/" ++ reference

/-- The single-quote character (codepoint 39). -/
def squote : Char := Char.ofNat 39

/-- A character matched by the regex class `["']`. -/
def isQuote (c : Char) : Bool := c = '"' || c = squote

/-- The whitespace matched by JS `\s` and stripped by `trim()`: the
ECMAScript WhiteSpace code points (TAB, VT, FF, SP, NBSP, ZWNBSP and the
Unicode space separators U+1680, U+2000-U+200A, U+202F, U+205F, U+3000)
together with the LineTerminator code points (LF, CR, LS, PS). -/
def isWs (c : Char) : Bool :=
  c = ' ' || c = '\t' || c = '\n' || c = '\r' || c.toNat = 11 || c.toNat = 12 ||
  c.toNat = 0xA0 || c.toNat = 0x1680 ||
  (0x2000 ≤ c.toNat && c.toNat ≤ 0x200A) ||
  c.toNat = 0x2028 || c.toNat = 0x2029 || c.toNat = 0x202F ||
  c.toNat = 0x205F || c.toNat = 0x3000 || c.toNat = 0xFEFF

/-- JS `String.prototype.trim` on character lists. -/
def jsTrim (s : List Char) : List Char :=
  ((s.dropWhile isWs).reverse.dropWhile isWs).reverse

/-- JS `String.prototype.includes` on character lists: `pat` occurs as a
contiguous substring of `s`. -/
def hasSubstr (pat : List Char) : List Char → Bool
  | [] => pat.isEmpty
  | c :: t => pat.isPrefixOf (c :: t) || hasSubstr pat t

/-- JS `String.prototype.includes`. -/
def strContains (s pat : String) : Bool := hasSubstr pat.toList s.toList

/-- JS `String.prototype.replace` with a plain-string pattern: replace the
first occurrence of `pat` (if any) by `repl`. -/
def replaceFirstL (pat repl : List Char) : List Char → List Char
  | [] => if pat.isEmpty then repl else []
  | c :: t =>
    if pat.isPrefixOf (c :: t) then repl ++ (c :: t).drop pat.length
    else c :: replaceFirstL pat repl t

/-- JS `String.prototype.replace` with a plain-string pattern, on `String`. -/
def replaceFirstStr (s pat repl : String) : String :=
  ⟨replaceFirstL pat.toList repl.toList s.toList⟩

/-- JS `String.prototype.split(sep)` for a single-character separator:
`[] ↦ [[]]` (JS `"".split(',') = [""]`), separators delimit possibly empty
pieces. -/
def splitChar (sep : Char) : List Char → List (List Char)
  | [] => [[]]
  | c :: t =>
    if c = sep then [] :: splitChar sep t
    else
      match splitChar sep t with
      | [] => [[c]]
      | p :: ps => (c :: p) :: ps

/-- JS `String.prototype.split(/\s+/)`: split on maximal whitespace runs;
an empty leading (trailing) piece appears when the string starts (ends)
with whitespace, matching the JS semantics. -/
def splitWsRuns : List Char → List (List Char)
  | [] => [[]]
  | c :: t =>
    if isWs c then
      match t with
      | [] => [[], []]
      | d :: _ => if isWs d then splitWsRuns t else [] :: splitWsRuns t
    else
      match splitWsRuns t with
      | [] => [[c]]
      | p :: ps => (c :: p) :: ps

/-- `Array.prototype.join(sep)` on character lists. -/
def joinSep (sep : List Char) : List (List Char) → List Char
  | [] => []
  | [x] => x
  | x :: y :: t => x ++ sep ++ joinSep sep (y :: t)

/-- The arrow function inside the worker's `srcset` rewrite: trim one
comma-separated candidate, split it on whitespace into a URL and an optional
descriptor, proxy the URL and reattach the descriptor. -/
def srcsetCandidate (b : String) (part : List Char) : List Char :=
  let pieces := splitWsRuns (jsTrim part)
  let url : List Char := pieces.headD []
  let size : List Char := (pieces.get? 1).getD []
  jsTrim ((proxyUrl ⟨url⟩ b).toList ++ ' ' :: size)

/-- The worker's `srcset` attribute-value rewrite: split on commas, rewrite
each candidate, and rejoin with a comma and a space. -/
def srcsetRewrite (v : String) (b : String) : String :=
  ⟨joinSep ", ".toList ((splitChar ',' v.toList).map (srcsetCandidate b))⟩

/-- Result of matching `(src|href)=["']([^"']+)["']` at the head of a
string: the whole matched text, the attribute name as written (group 1) and
the attribute value (group 2). -/
structure AttrM where
  matched : List Char
  attr : List Char
  url : List Char
deriving Repr, DecidableEq

/-- The `(src|href)` alternation, case-insensitively, at the head of `s`;
returns the matched characters as written and the remainder. -/
def matchName (s : List Char) : Option (List Char × List Char) :=
  if (s.take 3).map Char.toLower = ['s', 'r', 'c'] then some (s.take 3, s.drop 3)
  else if (s.take 4).map Char.toLower = ['h', 'r', 'e', 'f'] then some (s.take 4, s.drop 4)
  else none

/-- Match `(src|href)=["']([^"']+)["']` (the worker's first HTML regex) at
the head of `s`, with JS backtracking semantics. -/
def matchAttr (s : List Char) : Option AttrM :=
  match matchName s with
  | none => none
  | some (attr, rest1) =>
    match rest1 with
    | '=' :: q1 :: rest3 =>
      if isQuote q1 then
        match rest3.takeWhile (fun c => !(isQuote c)),
              rest3.dropWhile (fun c => !(isQuote c)) with
        | [], _ => none
        | _, [] => none
        | u0 :: url1, q2 :: _ =>
          some ⟨attr ++ '=' :: q1 :: ((u0 :: url1) ++ [q2]), attr, u0 :: url1⟩
      else none
    | _ => none

/-- The exemption test in the worker's attribute-rewrite callback. -/
def exemptRef (url : List Char) : Bool :=
  "data:".toList.isPrefixOf url || "javascript:".toList.isPrefixOf url ||
  "#".toList.isPrefixOf url

/-- One step of a JS global regex replace: try the pattern at the head of
the string; on success return the replacement text and the length of the
matched text (always positive for the worker's patterns). -/
def ScanStep : Type := List Char → Option (List Char × Nat)

/-- Fuel-indexed left-to-right scanner implementing JS `replace` with the
`g` flag: at each position try the step; on a match emit the replacement
and resume after the matched text, otherwise copy one character.  The fuel
only serves to make the recursion structural; `runScan` supplies enough. -/
def scanG (step : ScanStep) : Nat → List Char → List Char
  | 0, s => s
  | _ + 1, [] => []
  | fuel + 1, c :: rest =>
    match step (c :: rest) with
    | some (repl, len) => repl ++ scanG step fuel (rest.drop (len - 1))
    | none => c :: scanG step fuel rest

/-- JS `String.prototype.replace(regex-with-g, f)`. -/
def runScan (step : ScanStep) (s : List Char) : List Char := scanG step s.length s

/-- The step for the worker's `src`/`href` regex: each match is either kept
verbatim (exempt schemes) or replaced by `attr="<proxied>"`. -/
def attrStep (b : String) (s : List Char) : Option (List Char × Nat) :=
  match matchAttr s with
  | some r =>
    some ((if exemptRef r.url then r.matched
           else r.attr ++ '=' :: '"' :: ((proxyUrl ⟨r.url⟩ b).toList ++ ['"'])),
          r.matched.length)
  | none => none

/-- Global replacement for the worker's `src`/`href` regex. -/
def scanAttr (b : String) (s : List Char) : List Char := runScan (attrStep b) s

/-- Result of matching `srcset=["']([^"']+)["']` at the head of a string. -/
structure SrcsetM where
  matched : List Char
  val : List Char
deriving Repr, DecidableEq

/-- Match `srcset=["']([^"']+)["']` (the worker's second HTML regex) at the
head of `s`. -/
def matchSrcset (s : List Char) : Option SrcsetM :=
  if (s.take 6).map Char.toLower = ['s', 'r', 'c', 's', 'e', 't'] then
    match s.drop 6 with
    | '=' :: q1 :: rest3 =>
      if isQuote q1 then
        match rest3.takeWhile (fun c => !(isQuote c)),
              rest3.dropWhile (fun c => !(isQuote c)) with
        | [], _ => none
        | _, [] => none
        | v0 :: vs, q2 :: _ =>
          some ⟨(s.take 6) ++ '=' :: q1 :: ((v0 :: vs) ++ [q2]), v0 :: vs⟩
      else none
    | _ => none
  else none

/-- The step for the worker's `srcset` regex: the attribute value is run
through `srcsetRewrite` and the attribute re-emitted with double quotes. -/
def srcsetStep (b : String) (s : List Char) : Option (List Char × Nat) :=
  match matchSrcset s with
  | some r =>
    some ("srcset=".toList ++ '"' :: ((srcsetRewrite ⟨r.val⟩ b).toList ++ ['"']),
          r.matched.length)
  | none => none

/-- Global replacement for the worker's `srcset` regex. -/
def scanSrcset (b : String) (s : List Char) : List Char := runScan (srcsetStep b) s

/-- Result of matching the CSS regex `url\(["']?([^)"']+)["']?\)` at the
head of a string. -/
structure CssM where
  matched : List Char
  arg : List Char
deriving Repr, DecidableEq

/-- A character of the regex class `[^)"']`. -/
def cssArgChar (c : Char) : Bool := !(c = ')' || isQuote c)

/-- The tail of the CSS regex after the function name and the optional
opening quote: a non-empty run of characters outside `)"'`, an optional
closing quote, then a literal `)`, with JS backtracking semantics. -/
def cssTail (name openq rest2 : List Char) : Option CssM :=
  match rest2.takeWhile cssArgChar, rest2.dropWhile cssArgChar with
  | [], _ => none
  | _, [] => none
  | a0 :: args, q2 :: rest4 =>
    if q2 = ')' then some ⟨name ++ openq ++ ((a0 :: args) ++ [')']), a0 :: args⟩
    else
      match rest4 with
      | ')' :: _ => some ⟨name ++ openq ++ ((a0 :: args) ++ [q2, ')']), a0 :: args⟩
      | _ => none

/-- Match `url\(["']?([^)"']+)["']?\)` (the worker's CSS regex) at the head
of `s`: the case-insensitive name `url(`, then an optionally quoted
argument handled by `cssTail`. -/
def matchCssUrl (s : List Char) : Option CssM :=
  if (s.take 4).map Char.toLower = ['u', 'r', 'l', '('] then
    match s.drop 4 with
    | [] => none
    | c0 :: t0 =>
      if isQuote c0 then cssTail (s.take 4) [c0] t0
      else cssTail (s.take 4) [] (c0 :: t0)
  else none

/-- The step for the worker's CSS regex: `data:` arguments are kept
verbatim, everything else becomes `url("<proxied>")`. -/
def cssStep (b : String) (s : List Char) : Option (List Char × Nat) :=
  match matchCssUrl s with
  | some r =>
    some ((if "data:".toList.isPrefixOf r.arg then r.matched
           else "url(".toList ++ '"' :: ((proxyUrl ⟨r.arg⟩ b).toList ++ ['"', ')'])),
          r.matched.length)
  | none => none

/-- Global replacement for the worker's CSS regex. -/
def scanCss (b : String) (s : List Char) : List Char := runScan (cssStep b) s

/-- `rewriteCss(css, baseUrl)` from the worker. -/
def rewriteCss (css baseUrl : String) : String := ⟨scanCss baseUrl css.toList⟩

/-- The inline script the worker injects after the opening head tag. -/
def fixScript : String :=
  "<script>(function()\x7btry\x7bhistory.pushState=history.replaceState=function()\x7b\x7d;\x7dcatch(e)\x7b\x7d\x7d)();</script>"

/-- The shim-injection step at the end of `rewriteHtml`: replace the first
`<head>` (or, failing that, the first `<HEAD>`) by itself followed by the
fix script; otherwise leave the document alone. -/
def injectFix (html : String) : String :=
  if strContains html "<head>" then
    replaceFirstStr html "<head>" ("<head>" ++ fixScript)
  else if strContains html "<HEAD>" then
    replaceFirstStr html "<HEAD>" ("<HEAD>" ++ fixScript)
  else html

/-- `rewriteHtml(html, baseUrl)` from the worker: the `src`/`href` pass,
then the `srcset` pass, then the shim injection. -/
def rewriteHtml (html baseUrl : String) : String :=
  injectFix ⟨scanSrcset baseUrl (scanAttr baseUrl html.toList)⟩

/-- `String.prototype.toLowerCase` for ASCII header names, written on the
underlying character list so that it evaluates by kernel reduction. -/
def lowerKey (s : String) : String := ⟨s.toList.map Char.toLower⟩

/-- A header set, as the Fetch `Headers` iteration presents it: a list of
name/value pairs.  Header names compare case-insensitively. -/
abbrev Hdrs := List (String × String)

/-- Case-insensitive header lookup (`Headers.prototype.get`): value of the
first entry whose name matches. -/
def hGet (hs : Hdrs) (k : String) : Option String :=
  ((List.find? (fun kv => lowerKey kv.1 = lowerKey k) hs).map Prod.snd)

/-- `Headers.prototype.set`: replace the value of an existing entry with a
case-insensitively equal name, or append a new entry. -/
def hSet (hs : Hdrs) (k v : String) : Hdrs :=
  if (hs : List (String × String)).any (fun kv => lowerKey kv.1 = lowerKey k) then
    (hs : List (String × String)).map
      (fun kv => if lowerKey kv.1 = lowerKey k then (kv.1, v) else kv)
  else (hs : List (String × String)) ++ [(k, v)]

/-- The header names dropped by `cleanHeaders` (compared on the lowercased
name). -/
def bannedHeader (k : String) : Bool :=
  lowerKey k = "x-frame-options" || lowerKey k = "content-security-policy" ||
  lowerKey k = "content-security-policy-report-only"

/-- `cleanHeaders(headers)` from the worker: copy every non-banned header
into a fresh set, then force `Access-Control-Allow-Origin: *`. -/
def cleanHeaders (headers : Hdrs) : Hdrs :=
  hSet
    ((headers : List (String × String)).foldl
      (fun acc kv => if bannedHeader kv.1 then acc else hSet acc kv.1 kv.2) [])
    "Access-Control-Allow-Origin" "*"

/-- `corsHeaders()` from the worker. -/
def corsHeadersList : Hdrs :=
  [("Access-Control-Allow-Origin", "*"),
   ("Access-Control-Allow-Methods", "GET, OPTIONS"),
   ("Access-Control-Allow-Headers", "*")]

/-- The content-type dispatch in the worker's `fetch` handler: route the
body through the HTML or CSS rewriter, or pass it through untouched.  The
body is modelled as the decoded text; passthrough returns it unchanged. -/
def dispatchBody (contentType body base : String) : String :=
  if strContains contentType "text/html" then rewriteHtml body base
  else if strContains contentType "text/css" then rewriteCss body base
  else body

/-- The observable parts of an inbound request: HTTP method and the `url`
query parameter (`None` when absent). -/
structure Request' where
  method : String
  urlParam : Option String
deriving Repr, DecidableEq

/-- Scheme and host of a parsed URL (`URL.protocol` keeps its trailing
colon, as in the Web API). -/
structure URLParts where
  protocol : String
  host : String
deriving Repr, DecidableEq

/-- Outcome of the upstream `fetch(targetUrl, …)` call: a response
(status, headers, decoded body) or a thrown error message. -/
inductive FetchOutcome where
  | ok (status : Nat) (headers : Hdrs) (body : String)
  | err (msg : String)
deriving Repr

/-- An outbound HTTP response (status, headers, body text; `""` models the
`null` body of the preflight response). -/
structure Response' where
  status : Nat
  headers : Hdrs
  body : String

/-- The worker's `fetch` handler.  `parse` models `new URL(·)` (throwing is
`Except.error` with the exception message) and `upstream` models the result
of the upstream fetch; both are oracles supplied by the environment.  The
returned flag records whether the upstream fetch was performed. -/
def handleFetch (req : Request') (parse : String → Except String URLParts)
    (upstream : FetchOutcome) : Response' × Bool :=
  if req.method = "OPTIONS" then (⟨200, corsHeadersList, ""⟩, false)
  else
    match req.urlParam with
    | none => (⟨400, corsHeadersList, "Missing url parameter"⟩, false)
    | some t =>
      if t = "" then (⟨400, corsHeadersList, "Missing url parameter"⟩, false)
      else
        match parse t with
        | Except.error m => (⟨500, corsHeadersList, "Proxy error: " ++ m⟩, false)
        | Except.ok parts =>
          let baseUrl := parts.protocol ++ "//" ++ parts.host
          match upstream with
          | FetchOutcome.err m =>
            (⟨500, corsHeadersList, "Proxy error: " ++ m⟩, true)
          | FetchOutcome.ok status headers body =>
            let contentType := (hGet headers "content-type").getD ""
            (⟨status, cleanHeaders headers, dispatchBody contentType body baseUrl⟩,
             true)

/-- C1: `resolve` follows the four-case priority policy and always returns
the proxy base endpoint with the absolute URL percent-encoded as the `url`
query parameter. -/
theorem thm_C1_resolver (r b : String) :
    proxyUrl r b = PROXY_URL ++ "/?url=" ++ encodeURIComponent (resolveSpec r b) := rfl

/-- Sanity: a concrete resolution through each branch of the policy. -/
example : proxyUrl "/bg.png" "https://e.com" =
    "https://tv-proxy.shariflii.workers.dev/?url=https%3A%2F%2Fe.com%2Fbg.png" := by decide

theorem takeWhile_middle {p : Char → Bool} (xs : List Char) (y : Char) (ys : List Char)
    (hxs : ∀ c ∈ xs, p c = true) (hy : p y = false) :
    (xs ++ y :: ys).takeWhile p = xs := by
  induction xs with
  | nil => simp [List.takeWhile_cons, hy]
  | cons a t ih =>
    have ha : p a = true := hxs a (List.mem_cons_self a t)
    simp only [List.cons_append, List.takeWhile_cons, ha, if_true]
    rw [ih (fun c hc => hxs c (List.mem_cons_of_mem a hc))]

theorem dropWhile_middle {p : Char → Bool} (xs : List Char) (y : Char) (ys : List Char)
    (hxs : ∀ c ∈ xs, p c = true) (hy : p y = false) :
    (xs ++ y :: ys).dropWhile p = y :: ys := by
  induction xs with
  | nil => simp [List.dropWhile_cons, hy]
  | cons a t ih =>
    have ha : p a = true := hxs a (List.mem_cons_self a t)
    simp only [List.cons_append, List.dropWhile_cons, ha, if_true]
    exact ih (fun c hc => hxs c (List.mem_cons_of_mem a hc))

/-- C9: an OPTIONS request is answered immediately with an empty body,
status 200, and the three CORS headers, and no upstream fetch happens —
whether or not a `url` parameter is present. -/
theorem thm_C9_preflight (req : Request') (parse : String → Except String URLParts)
    (upstream : FetchOutcome) (hm : req.method = "OPTIONS") :
    handleFetch req parse upstream =
      (⟨200, corsHeadersList, ""⟩, false) := by
  unfold handleFetch
  rw [hm]
  simp

/-- Witness for C9 at a concrete request (with a `url` parameter present). -/
theorem thm_C9_preflight_witness :
    handleFetch ⟨"OPTIONS", some "https://example.com"⟩
      (fun _ => Except.error "Invalid URL") (FetchOutcome.err "network down") =
      (⟨200, corsHeadersList, ""⟩, false) :=
  thm_C9_preflight _ _ _ rfl

/-- C8: a non-OPTIONS request whose `url` parameter is missing or empty gets
status 400 with body `Missing url parameter` and the CORS headers, and no
upstream fetch happens. -/
theorem thm_C8_missing_url (req : Request') (parse : String → Except String URLParts)
    (upstream : FetchOutcome) (hm : ¬ req.method = "OPTIONS")
    (hu : req.urlParam = none ∨ req.urlParam = some "") :
    handleFetch req parse upstream =
      (⟨400, corsHeadersList, "Missing url parameter"⟩, false) := by
  unfold handleFetch
  rw [if_neg hm]
  rcases hu with hu | hu <;> rw [hu] <;> simp

/-- Witness for C8: one request with the parameter missing, one with it
empty. -/
theorem thm_C8_missing_url_witness :
    handleFetch ⟨"GET", none⟩ (fun _ => Except.error "Invalid URL")
        (FetchOutcome.err "network down") =
      (⟨400, corsHeadersList, "Missing url parameter"⟩, false) ∧
    handleFetch ⟨"GET", some ""⟩ (fun _ => Except.error "Invalid URL")
        (FetchOutcome.err "network down") =
      (⟨400, corsHeadersList, "Missing url parameter"⟩, false) :=
  ⟨thm_C8_missing_url _ _ _ (by decide) (Or.inl rfl),
   thm_C8_missing_url _ _ _ (by decide) (Or.inr rfl)⟩

/-- C7: when the `url` parameter fails to parse, or the upstream fetch
throws, the handler answers 500 with the plain-text body
`Proxy error: <message>` and the CORS headers; the handler is a total
function, so no failure escapes it. -/
theorem thm_C7_errors (req : Request') (t m : String)
    (parse : String → Except String URLParts) (upstream : FetchOutcome)
    (hm : ¬ req.method = "OPTIONS") (hu : req.urlParam = some t) (ht : ¬ t = "") :
    (parse t = Except.error m →
      handleFetch req parse upstream =
        (⟨500, corsHeadersList, "Proxy error: " ++ m⟩, false)) ∧
    (∀ parts, parse t = Except.ok parts → upstream = FetchOutcome.err m →
      handleFetch req parse upstream =
        (⟨500, corsHeadersList, "Proxy error: " ++ m⟩, true)) := by
  constructor
  · intro hp
    unfold handleFetch
    rw [if_neg hm, hu]
    simp only [ht, if_false, hp, if_neg]
  · intro parts hp hup
    unfold handleFetch
    rw [if_neg hm, hu]
    simp only [ht, if_false, hp, hup]

/-- Witness for C7: a parse failure and an upstream-fetch failure, each at a
concrete request. -/
theorem thm_C7_errors_witness :
    handleFetch ⟨"GET", some "notaurl"⟩ (fun _ => Except.error "Invalid URL: notaurl")
        (FetchOutcome.err "connect timeout") =
      (⟨500, corsHeadersList, "Proxy error: " ++ "Invalid URL: notaurl"⟩, false) ∧
    handleFetch ⟨"GET", some "https://e.com"⟩
        (fun _ => Except.ok ⟨"https:", "e.com"⟩) (FetchOutcome.err "connect timeout") =
      (⟨500, corsHeadersList, "Proxy error: " ++ "connect timeout"⟩, true) :=
  ⟨(thm_C7_errors _ "notaurl" "Invalid URL: notaurl" _ _ (by decide) rfl (by decide)).1 rfl,
   (thm_C7_errors _ "https://e.com" "connect timeout" _ _ (by decide) rfl (by decide)).2
     ⟨"https:", "e.com"⟩ rfl rfl⟩

/-- C10: the shim is injected at most once, exactly where the code's check
succeeds: `rewriteHtml` is the two rewrite passes followed by `injectFix`;
`injectFix` replaces the first occurrence of the exact string `<head>` when
present (so the `<HEAD>` branch is not taken), otherwise the first
occurrence of the exact string `<HEAD>` when present, and otherwise returns
the document unchanged — in particular `<head lang="en">` and `<Head>`
documents get no injection. -/
theorem thm_C10_inject (html b doc : String) :
    (rewriteHtml html b = injectFix ⟨scanSrcset b (scanAttr b html.toList)⟩) ∧
    (strContains doc "<head>" = true →
      injectFix doc = replaceFirstStr doc "<head>" ("<head>" ++ fixScript)) ∧
    (strContains doc "<head>" = false → strContains doc "<HEAD>" = true →
      injectFix doc = replaceFirstStr doc "<HEAD>" ("<HEAD>" ++ fixScript)) ∧
    (strContains doc "<head>" = false → strContains doc "<HEAD>" = false →
      injectFix doc = doc) := by
  refine ⟨rfl, ?_, ?_, ?_⟩
  · intro h1
    unfold injectFix
    rw [h1]
    simp
  · intro h1 h2
    unfold injectFix
    rw [h1, h2]
    simp
  · intro h1 h2
    unfold injectFix
    rw [h1, h2]
    simp

/-- Witness for C10: the three branches at concrete documents — a lone
lowercase head tag (first occurrence only), an uppercase one, and documents
with an attribute-bearing or mixed-case head tag, which get no injection. -/
theorem thm_C10_inject_witness :
    rewriteHtml "<p>x</p>" "https://e.com" =
      injectFix ⟨scanSrcset "https://e.com" (scanAttr "https://e.com" "<p>x</p>".toList)⟩ ∧
    injectFix "<head><head>" = replaceFirstStr "<head><head>" "<head>" ("<head>" ++ fixScript) ∧
    injectFix "<HEAD>x" = replaceFirstStr "<HEAD>x" "<HEAD>" ("<HEAD>" ++ fixScript) ∧
    injectFix "<head lang=\"en\"><Head>" = "<head lang=\"en\"><Head>" :=
  ⟨(thm_C10_inject "<p>x</p>" "https://e.com" "x").1,
   (thm_C10_inject "x" "https://e.com" "<head><head>").2.1 (by decide),
   (thm_C10_inject "x" "https://e.com" "<HEAD>x").2.2.1 (by decide) (by decide),
   (thm_C10_inject "x" "https://e.com" "<head lang=\"en\"><Head>").2.2.2 (by decide) (by decide)⟩

theorem hSet_key_of_mem (k v : String) (kv : String × String) :
    ((if lowerKey kv.1 = lowerKey k then (kv.1, v) else kv) : String × String).1 = kv.1 := by
  split <;> rfl

theorem hGet_hSet_self (hs : Hdrs) (k v : String) : hGet (hSet hs k v) k = some v := by
  unfold hGet hSet
  by_cases hany : hs.any (fun kv => lowerKey kv.1 = lowerKey k)
  · rw [if_pos hany, List.find?_map]
    have hcomp : ((fun kv => decide (lowerKey (kv : String × String).1 = lowerKey k)) ∘
        (fun kv => if lowerKey kv.1 = lowerKey k then (kv.1, v) else kv)) =
        (fun kv => decide (lowerKey kv.1 = lowerKey k)) := by
      funext kv
      simp [Function.comp, hSet_key_of_mem k v kv]
    rw [hcomp]
    have hex : ∃ kv ∈ hs, decide (lowerKey kv.1 = lowerKey k) := by
      simpa using List.any_eq_true.mp hany
    obtain ⟨kv₀, hfind⟩ := Option.isSome_iff_exists.mp (List.find?_isSome.mpr hex)
    have hq : lowerKey kv₀.1 = lowerKey k := by simpa using List.find?_some hfind
    rw [hfind]
    simp [hq]
  · rw [if_neg hany, List.find?_append]
    have hnone : hs.find? (fun kv => lowerKey kv.1 = lowerKey k) = none := by
      rw [List.find?_eq_none]
      intro kv hmem hq
      exact hany (List.any_eq_true.mpr ⟨kv, hmem, hq⟩)
    rw [hnone]
    simp

theorem hGet_hSet_other (hs : Hdrs) (k v k' : String) (hk : ¬ lowerKey k' = lowerKey k) :
    hGet (hSet hs k v) k' = hGet hs k' := by
  unfold hGet hSet
  by_cases hany : hs.any (fun kv => lowerKey kv.1 = lowerKey k)
  · rw [if_pos hany, List.find?_map]
    have hcomp : ((fun kv => decide (lowerKey (kv : String × String).1 = lowerKey k')) ∘
        (fun kv => if lowerKey kv.1 = lowerKey k then (kv.1, v) else kv)) =
        (fun kv => decide (lowerKey kv.1 = lowerKey k')) := by
      funext kv
      simp [Function.comp, hSet_key_of_mem k v kv]
    rw [hcomp]
    cases hfind : hs.find? (fun kv => lowerKey kv.1 = lowerKey k') with
    | none => simp
    | some kv₀ =>
      have hq : lowerKey kv₀.1 = lowerKey k' := by simpa using List.find?_some hfind
      have : ¬ lowerKey kv₀.1 = lowerKey k := by rw [hq]; exact hk
      simp [this]
  · rw [if_neg hany, List.find?_append]
    have hone : List.find? (fun kv => lowerKey kv.1 = lowerKey k') [(k, v)] = none := by
      rw [List.find?_eq_none]
      intro kv hmem hq
      rw [List.mem_singleton] at hmem
      subst hmem
      exact hk ((of_decide_eq_true hq).symm)
    rw [hone, Option.or_none]

theorem mem_hSet_key (hs : Hdrs) (k v : String) (kv : String × String)
    (h : kv ∈ hSet hs k v) : kv.1 ∈ hs.map Prod.fst ∨ kv.1 = k := by
  unfold hSet at h
  split at h
  · rcases List.mem_map.mp h with ⟨kv', hmem, heq⟩
    left
    have : kv.1 = kv'.1 := by rw [← heq, hSet_key_of_mem]
    rw [this]
    exact List.mem_map.mpr ⟨kv', hmem, rfl⟩
  · rcases List.mem_append.mp h with hmem | hmem
    · left
      exact List.mem_map.mpr ⟨kv, hmem, rfl⟩
    · right
      rw [List.mem_singleton] at hmem
      rw [hmem]

theorem bannedHeader_congr (k1 k2 : String) (h : lowerKey k1 = lowerKey k2) :
    bannedHeader k1 = bannedHeader k2 := by
  unfold bannedHeader
  rw [h]

theorem cleanFold_banned (h : Hdrs) :
    ∀ kv ∈ h.foldl (fun acc kv => if bannedHeader kv.1 then acc else hSet acc kv.1 kv.2) [],
      bannedHeader kv.1 = false := by
  suffices H : ∀ (l acc : Hdrs), (∀ kv ∈ acc, bannedHeader kv.1 = false) →
      ∀ kv ∈ l.foldl (fun acc kv => if bannedHeader kv.1 then acc else hSet acc kv.1 kv.2) acc,
        bannedHeader kv.1 = false by
    exact H h [] (by simp)
  intro l
  induction l with
  | nil =>
    intro acc hacc kv hmem
    exact hacc kv hmem
  | cons a t ih =>
    intro acc hacc kv hmem
    simp only [List.foldl_cons] at hmem
    by_cases hb : bannedHeader a.1
    · rw [if_pos hb] at hmem
      exact ih acc hacc kv hmem
    · rw [if_neg hb] at hmem
      refine ih (hSet acc a.1 a.2) ?_ kv hmem
      intro kv' hkv'
      rcases mem_hSet_key acc a.1 a.2 kv' hkv' with hin | heq
      · rcases List.mem_map.mp hin with ⟨kv'', hm, hk⟩
        rw [← hk]
        exact hacc kv'' hm
      · rw [heq]
        exact Bool.not_eq_true _ ▸ (by simpa using hb)

theorem cleanHeaders_no_banned (h : Hdrs) (name : String) (hb : bannedHeader name = true) :
    hGet (cleanHeaders h) name = none := by
  unfold cleanHeaders
  have hfind : (hSet
      (h.foldl (fun acc kv => if bannedHeader kv.1 then acc else hSet acc kv.1 kv.2) [])
      "Access-Control-Allow-Origin" "*").find?
        (fun kv => lowerKey kv.1 = lowerKey name) = none := by
    rw [List.find?_eq_none]
    intro kv hmem hq
    have hq' : lowerKey kv.1 = lowerKey name := of_decide_eq_true hq
    have hkvb : bannedHeader kv.1 = true := (bannedHeader_congr _ _ hq').trans hb
    rcases mem_hSet_key _ _ _ kv hmem with hin | heq
    · rcases List.mem_map.mp hin with ⟨kv', hm', hk'⟩
      have := cleanFold_banned h kv' hm'
      rw [hk'] at this
      rw [this] at hkvb
      cases hkvb
    · rw [heq] at hkvb
      have : bannedHeader "Access-Control-Allow-Origin" = false := by decide
      rw [this] at hkvb
      cases hkvb
  unfold hGet
  rw [hfind]
  rfl

theorem hSet_no_match (acc : Hdrs) (k v : String)
    (hno : ∀ kv ∈ acc, ¬ lowerKey kv.1 = lowerKey k) :
    hSet acc k v = acc ++ [(k, v)] := by
  unfold hSet
  rw [if_neg]
  intro hany
  rcases List.any_eq_true.mp hany with ⟨kv, hmem, hq⟩
  exact hno kv hmem (of_decide_eq_true hq)

theorem cleanFold_eq_filter (h : Hdrs)
    (hnd : (h.map (fun kv => lowerKey kv.1)).Nodup) :
    h.foldl (fun acc kv => if bannedHeader kv.1 then acc else hSet acc kv.1 kv.2) [] =
      h.filter (fun kv => !bannedHeader kv.1) := by
  suffices H : ∀ (l acc : Hdrs), (l.map (fun kv => lowerKey kv.1)).Nodup →
      (∀ kv ∈ l, ∀ kv' ∈ acc, ¬ lowerKey kv'.1 = lowerKey kv.1) →
      l.foldl (fun acc kv => if bannedHeader kv.1 then acc else hSet acc kv.1 kv.2) acc =
        acc ++ l.filter (fun kv => !bannedHeader kv.1) by
    simpa using H h [] hnd (by simp)
  intro l
  induction l with
  | nil =>
    intro acc _ _
    simp
  | cons a t ih =>
    intro acc hnd hdisj
    simp only [List.foldl_cons]
    have hndt : (t.map (fun kv => lowerKey kv.1)).Nodup := (List.nodup_cons.mp hnd).2
    have hhead : lowerKey a.1 ∉ t.map (fun kv => lowerKey kv.1) := (List.nodup_cons.mp hnd).1
    by_cases hb : bannedHeader a.1
    · rw [if_pos hb]
      rw [ih acc hndt (fun kv hkv kv' hkv' => hdisj kv (List.mem_cons_of_mem a hkv) kv' hkv')]
      simp [List.filter_cons, hb]
    · rw [if_neg hb]
      have hset : hSet acc a.1 a.2 = acc ++ [(a.1, a.2)] :=
        hSet_no_match acc a.1 a.2
          (fun kv' hkv' => hdisj a (List.mem_cons_self a t) kv' hkv')
      rw [hset]
      have hdisj' : ∀ kv ∈ t, ∀ kv' ∈ acc ++ [(a.1, a.2)], ¬ lowerKey kv'.1 = lowerKey kv.1 := by
        intro kv hkv kv' hkv'
        rcases List.mem_append.mp hkv' with hin | hin
        · exact hdisj kv (List.mem_cons_of_mem a hkv) kv' hin
        · rw [List.mem_singleton] at hin
          rw [hin]
          intro heq
          exact hhead (by rw [heq]; exact List.mem_map.mpr ⟨kv, hkv, rfl⟩)
      rw [ih (acc ++ [(a.1, a.2)]) hndt hdisj']
      simp [List.filter_cons, hb]

theorem hGet_filter_not_banned (h : Hdrs) (k : String) (hk : bannedHeader k = false) :
    hGet (h.filter (fun kv => !bannedHeader kv.1)) k = hGet h k := by
  induction h with
  | nil => rfl
  | cons a t ih =>
    by_cases hb : bannedHeader a.1
    · have hmatch : ¬ lowerKey a.1 = lowerKey k := by
        intro heq
        rw [bannedHeader_congr a.1 k heq, hk] at hb
        cases hb
      rw [List.filter_cons, if_neg (by simp [hb])]
      unfold hGet
      rw [List.find?_cons_of_neg _ (by simpa using hmatch)]
      exact ih
    · rw [List.filter_cons, if_pos (by simp [hb])]
      by_cases hmatch : lowerKey a.1 = lowerKey k
      · unfold hGet
        rw [List.find?_cons_of_pos _ (by simpa using hmatch),
            List.find?_cons_of_pos _ (by simpa using hmatch)]
      · unfold hGet
        rw [List.find?_cons_of_neg _ (by simpa using hmatch),
            List.find?_cons_of_neg _ (by simpa using hmatch)]
        exact ih

/-- C2: on a header set with no duplicate (case-insensitive) names — as the
Fetch `Headers` iteration guarantees — `cleanHeaders` removes exactly
`X-Frame-Options`, `Content-Security-Policy` and
`Content-Security-Policy-Report-Only` (case-insensitively), forces
`Access-Control-Allow-Origin: *` overwriting any upstream value, and
answers every other lookup with the upstream value unchanged. -/
theorem thm_C2_sanitize (h : Hdrs) (hnd : (h.map (fun kv => lowerKey kv.1)).Nodup) :
    hGet (cleanHeaders h) "X-Frame-Options" = none ∧
    hGet (cleanHeaders h) "Content-Security-Policy" = none ∧
    hGet (cleanHeaders h) "Content-Security-Policy-Report-Only" = none ∧
    hGet (cleanHeaders h) "Access-Control-Allow-Origin" = some "*" ∧
    (∀ k, bannedHeader k = false → ¬ lowerKey k = lowerKey "Access-Control-Allow-Origin" →
      hGet (cleanHeaders h) k = hGet h k) := by
  refine ⟨cleanHeaders_no_banned h _ (by decide),
          cleanHeaders_no_banned h _ (by decide),
          cleanHeaders_no_banned h _ (by decide),
          hGet_hSet_self _ _ _, ?_⟩
  intro k hkb hkacao
  unfold cleanHeaders
  rw [hGet_hSet_other _ _ _ _ hkacao, cleanFold_eq_filter h hnd,
      hGet_filter_not_banned h k hkb]

/-- Witness for C2 at a concrete upstream header set covering a banned
header in scrambled case, a CSP pair, an upstream CORS value that gets
overwritten, and an ordinary header that passes through. -/
theorem thm_C2_sanitize_witness :
    hGet (cleanHeaders [("X-FRAME-OPTIONS", "DENY"),
      ("Content-Security-Policy", "default-src"), ("csp-report-only", "x"),
      ("Access-Control-Allow-Origin", "https://orig.example"),
      ("Content-Type", "text/HTML; charset=utf-8")]) "X-Frame-Options" = none ∧
    hGet (cleanHeaders [("X-FRAME-OPTIONS", "DENY"),
      ("Content-Security-Policy", "default-src"), ("csp-report-only", "x"),
      ("Access-Control-Allow-Origin", "https://orig.example"),
      ("Content-Type", "text/HTML; charset=utf-8")]) "Access-Control-Allow-Origin" =
        some "*" ∧
    hGet (cleanHeaders [("X-FRAME-OPTIONS", "DENY"),
      ("Content-Security-Policy", "default-src"), ("csp-report-only", "x"),
      ("Access-Control-Allow-Origin", "https://orig.example"),
      ("Content-Type", "text/HTML; charset=utf-8")]) "content-type" =
        some "text/HTML; charset=utf-8" := by
  have H := thm_C2_sanitize [("X-FRAME-OPTIONS", "DENY"),
    ("Content-Security-Policy", "default-src"), ("csp-report-only", "x"),
    ("Access-Control-Allow-Origin", "https://orig.example"),
    ("Content-Type", "text/HTML; charset=utf-8")] (by decide)
  refine ⟨H.1, H.2.2.2.1, ?_⟩
  rw [H.2.2.2.2 "content-type" (by decide) (by decide)]
  decide

/-- C3 counterexample: the dispatcher's substring test is case-sensitive, so
an upstream `Content-Type: TEXT/HTML` is NOT routed to the HTML rewriter as
the claim requires — the body passes through unchanged even though the HTML
rewriter would have changed it. -/
theorem cex_C3_dispatch :
    strContains "TEXT/HTML" "text/html" = false ∧
    dispatchBody "TEXT/HTML" "<a href=\"/x\"></a>" "https://e.com" = "<a href=\"/x\"></a>" ∧
    rewriteHtml "<a href=\"/x\"></a>" "https://e.com" ≠ "<a href=\"/x\"></a>" :=
  ⟨by decide, by decide, by decide⟩

/-- C3 (amended): the dispatcher classifies by a case-sensitive substring
match on the `Content-Type` value: values containing the exact lowercase
substring `text/html` go to the HTML rewriter, values containing `text/css`
(and not `text/html`) go to the CSS rewriter, and every other value —
including a missing `Content-Type` header and case variants such as
`TEXT/HTML` — yields an outbound body identical to the upstream body. -/
theorem thm_C3_dispatch (ct body base : String) (hs : Hdrs) :
    (strContains ct "text/html" = true →
      dispatchBody ct body base = rewriteHtml body base) ∧
    (strContains ct "text/html" = false → strContains ct "text/css" = true →
      dispatchBody ct body base = rewriteCss body base) ∧
    (strContains ct "text/html" = false → strContains ct "text/css" = false →
      dispatchBody ct body base = body) ∧
    (hGet hs "content-type" = none →
      dispatchBody ((hGet hs "content-type").getD "") body base = body) := by
  refine ⟨?_, ?_, ?_, ?_⟩
  · intro h1
    unfold dispatchBody
    rw [h1]
    simp
  · intro h1 h2
    unfold dispatchBody
    rw [h1, h2]
    simp
  · intro h1 h2
    unfold dispatchBody
    rw [h1, h2]
    simp
  · intro hnone
    rw [hnone]
    show dispatchBody "" body base = body
    unfold dispatchBody
    rw [show strContains "" "text/html" = false from rfl,
        show strContains "" "text/css" = false from rfl]
    simp

/-- Witness for C3 (amended): the three routes and the missing-header case
at concrete content types. -/
theorem thm_C3_dispatch_witness :
    dispatchBody "text/html; charset=utf-8" "<a href=\"/x\"></a>" "https://e.com" =
      rewriteHtml "<a href=\"/x\"></a>" "https://e.com" ∧
    dispatchBody "text/css" "u{}" "https://e.com" = rewriteCss "u{}" "https://e.com" ∧
    dispatchBody "TEXT/HTML" "<a href=\"/x\"></a>" "https://e.com" = "<a href=\"/x\"></a>" ∧
    dispatchBody ((hGet [("content-length", "12")] "content-type").getD "")
      "binary" "https://e.com" = "binary" :=
  ⟨(thm_C3_dispatch "text/html; charset=utf-8" _ _ []).1 (by decide),
   (thm_C3_dispatch "text/css" _ _ []).2.1 (by decide) (by decide),
   (thm_C3_dispatch "TEXT/HTML" _ _ []).2.2.1 (by decide) (by decide),
   (thm_C3_dispatch "x" "binary" "https://e.com" [("content-length", "12")]).2.2.2 (by decide)⟩

theorem scanG_nil (step : ScanStep) : ∀ f, scanG step f [] = []
  | 0 => rfl
  | _ + 1 => rfl

theorem scanG_cons_some (step : ScanStep) (f : Nat) (c : Char) (rest repl : List Char)
    (len : Nat) (h : step (c :: rest) = some (repl, len)) :
    scanG step (f + 1) (c :: rest) = repl ++ scanG step f (rest.drop (len - 1)) := by
  have heq : scanG step (f + 1) (c :: rest) =
      match step (c :: rest) with
      | some (repl, len) => repl ++ scanG step f (rest.drop (len - 1))
      | none => c :: scanG step f rest := rfl
  rw [heq, h]

theorem scanG_cons_none (step : ScanStep) (f : Nat) (c : Char) (rest : List Char)
    (h : step (c :: rest) = none) :
    scanG step (f + 1) (c :: rest) = c :: scanG step f rest := by
  have heq : scanG step (f + 1) (c :: rest) =
      match step (c :: rest) with
      | some (repl, len) => repl ++ scanG step f (rest.drop (len - 1))
      | none => c :: scanG step f rest := rfl
  rw [heq, h]

theorem scanG_congr (step : ScanStep) :
    ∀ (f1 f2 : Nat) (s : List Char), s.length ≤ f1 → s.length ≤ f2 →
      scanG step f1 s = scanG step f2 s := by
  intro f1
  induction f1 with
  | zero =>
    intro f2 s h1 _
    have hs : s = [] := List.length_eq_zero.mp (Nat.le_zero.mp h1)
    subst hs
    rw [scanG_nil, scanG_nil]
  | succ f1' ih =>
    intro f2 s h1 h2
    cases s with
    | nil => rw [scanG_nil, scanG_nil]
    | cons c rest =>
      cases f2 with
      | zero => simp at h2
      | succ f2' =>
        simp only [List.length_cons, Nat.succ_le_succ_iff] at h1 h2
        cases hstep : step (c :: rest) with
        | none =>
          rw [scanG_cons_none _ _ _ _ hstep, scanG_cons_none _ _ _ _ hstep,
              ih f2' rest h1 h2]
        | some pr =>
          obtain ⟨repl, len⟩ := pr
          have hd : (rest.drop (len - 1)).length ≤ rest.length := by
            rw [List.length_drop]
            omega
          rw [scanG_cons_some _ _ _ _ _ _ hstep, scanG_cons_some _ _ _ _ _ _ hstep,
              ih f2' (rest.drop (len - 1)) (le_trans hd h1) (le_trans hd h2)]

theorem runScan_cons_none (step : ScanStep) (c : Char) (rest : List Char)
    (h : step (c :: rest) = none) :
    runScan step (c :: rest) = c :: runScan step rest := by
  unfold runScan
  rw [show (c :: rest).length = rest.length + 1 from rfl, scanG_cons_none _ _ _ _ h]

theorem runScan_step (step : ScanStep) (matched post repl : List Char)
    (h : step (matched ++ post) = some (repl, matched.length)) (hne : matched ≠ []) :
    runScan step (matched ++ post) = repl ++ runScan step post := by
  obtain ⟨c, m', rfl⟩ : ∃ c m', matched = c :: m' := by
    cases matched with
    | nil => exact absurd rfl hne
    | cons c m' => exact ⟨c, m', rfl⟩
  simp only [List.cons_append] at h ⊢
  unfold runScan
  rw [show (c :: (m' ++ post)).length = (m' ++ post).length + 1 from rfl,
      scanG_cons_some _ _ _ _ _ _ h]
  have hdrop : (m' ++ post).drop ((c :: m').length - 1) = post := by
    rw [show (c :: m').length - 1 = m'.length from by simp]
    exact List.drop_left m' post
  rw [hdrop, scanG_congr step (m' ++ post).length post.length post (by simp) (le_refl _)]

theorem matchName_at_head (name rest : List Char)
    (h : name.map Char.toLower = "src".toList ∨ name.map Char.toLower = "href".toList) :
    matchName (name ++ rest) = some (name, rest) := by
  unfold matchName
  rcases h with h | h
  · have hlen : name.length = 3 := by
      have := congrArg List.length h
      simpa using this
    rw [List.take_left' hlen, List.drop_left' hlen, if_pos (by exact h)]
  · have hlen : name.length = 4 := by
      have := congrArg List.length h
      simpa using this
    have h3 : (name ++ rest).take 3 = name.take 3 := by
      rw [List.take_append_eq_append_take, show 3 - name.length = 0 from by omega]
      simp
    have hne : ((name ++ rest).take 3).map Char.toLower ≠ ['s', 'r', 'c'] := by
      rw [h3, List.map_take, h]
      decide
    rw [if_neg hne, List.take_left' hlen, List.drop_left' hlen, if_pos (by exact h)]

theorem matchAttr_token (name : List Char) (q1 q2 : Char) (url post : List Char)
    (hname : name.map Char.toLower = "src".toList ∨ name.map Char.toLower = "href".toList)
    (hq1 : isQuote q1 = true) (hq2 : isQuote q2 = true)
    (hurl : url ≠ []) (hunq : ∀ c ∈ url, isQuote c = false) :
    matchAttr (name ++ '=' :: q1 :: (url ++ q2 :: post)) =
      some ⟨name ++ '=' :: q1 :: (url ++ [q2]), name, url⟩ := by
  obtain ⟨u0, url1, rfl⟩ : ∃ u0 url1, url = u0 :: url1 := by
    cases url with
    | nil => exact absurd rfl hurl
    | cons u0 url1 => exact ⟨u0, url1, rfl⟩
  unfold matchAttr
  rw [matchName_at_head name _ hname]
  have htake : ((u0 :: url1) ++ q2 :: post).takeWhile (fun c => !(isQuote c)) = u0 :: url1 :=
    takeWhile_middle _ _ _ (fun c hc => by rw [hunq c hc]; rfl) (by rw [hq2]; rfl)
  have hdrop : ((u0 :: url1) ++ q2 :: post).dropWhile (fun c => !(isQuote c)) = q2 :: post :=
    dropWhile_middle _ _ _ (fun c hc => by rw [hunq c hc]; rfl) (by rw [hq2]; rfl)
  simp only [htake, hdrop, hq1, if_true]

theorem scanAttr_exempt (b : String) (name : List Char) (q1 q2 : Char) (url post : List Char)
    (hname : name.map Char.toLower = "src".toList ∨ name.map Char.toLower = "href".toList)
    (hq1 : isQuote q1 = true) (hq2 : isQuote q2 = true)
    (hurl : url ≠ []) (hunq : ∀ c ∈ url, isQuote c = false)
    (hex : exemptRef url = true) :
    scanAttr b (name ++ '=' :: q1 :: (url ++ q2 :: post)) =
      (name ++ '=' :: q1 :: (url ++ [q2])) ++ scanAttr b post := by
  unfold scanAttr
  have hshape : name ++ '=' :: q1 :: (url ++ q2 :: post) =
      (name ++ '=' :: q1 :: (url ++ [q2])) ++ post := by simp
  rw [hshape]
  apply runScan_step
  · unfold attrStep
    rw [← hshape, matchAttr_token name q1 q2 url post hname hq1 hq2 hurl hunq]
    simp [hex]
  · simp

theorem cssTail_closed (name openq arg : List Char) (q2 : Char) (post : List Char)
    (harg : arg ≠ []) (hac : ∀ c ∈ arg, cssArgChar c = true) (hq2 : isQuote q2 = true) :
    cssTail name openq (arg ++ q2 :: ')' :: post) =
      some ⟨name ++ openq ++ (arg ++ [q2, ')']), arg⟩ := by
  obtain ⟨a0, args, rfl⟩ : ∃ a0 args, arg = a0 :: args := by
    cases arg with
    | nil => exact absurd rfl harg
    | cons a0 args => exact ⟨a0, args, rfl⟩
  unfold cssTail
  have htake : ((a0 :: args) ++ q2 :: ')' :: post).takeWhile cssArgChar = a0 :: args :=
    takeWhile_middle _ _ _ hac (by unfold cssArgChar; rw [hq2]; simp)
  have hdrop : ((a0 :: args) ++ q2 :: ')' :: post).dropWhile cssArgChar = q2 :: ')' :: post :=
    dropWhile_middle _ _ _ hac (by unfold cssArgChar; rw [hq2]; simp)
  have hq2ne : ¬ q2 = ')' := by
    intro h
    rw [h] at hq2
    exact absurd hq2 (by decide)
  simp only [htake, hdrop, hq2ne, if_false]

theorem cssTail_bare (name openq arg : List Char) (post : List Char)
    (harg : arg ≠ []) (hac : ∀ c ∈ arg, cssArgChar c = true) :
    cssTail name openq (arg ++ ')' :: post) =
      some ⟨name ++ openq ++ (arg ++ [')']), arg⟩ := by
  obtain ⟨a0, args, rfl⟩ : ∃ a0 args, arg = a0 :: args := by
    cases arg with
    | nil => exact absurd rfl harg
    | cons a0 args => exact ⟨a0, args, rfl⟩
  unfold cssTail
  have htake : ((a0 :: args) ++ ')' :: post).takeWhile cssArgChar = a0 :: args :=
    takeWhile_middle _ _ _ hac (by decide)
  have hdrop : ((a0 :: args) ++ ')' :: post).dropWhile cssArgChar = ')' :: post :=
    dropWhile_middle _ _ _ hac (by decide)
  simp only [htake, hdrop]
  simp

theorem matchCssUrl_quoted (name : List Char) (q1 q2 : Char) (arg post : List Char)
    (hname : name.map Char.toLower = "url(".toList)
    (hq1 : isQuote q1 = true) (hq2 : isQuote q2 = true)
    (harg : arg ≠ []) (hac : ∀ c ∈ arg, cssArgChar c = true) :
    matchCssUrl (name ++ q1 :: (arg ++ q2 :: ')' :: post)) =
      some ⟨name ++ q1 :: (arg ++ [q2, ')']), arg⟩ := by
  have hlen : name.length = 4 := by
    have := congrArg List.length hname
    simpa using this
  unfold matchCssUrl
  rw [List.take_left' hlen, List.drop_left' hlen, if_pos (by exact hname)]
  simp only [hq1, if_true]
  rw [cssTail_closed name [q1] arg q2 post harg hac hq2]
  simp

theorem matchCssUrl_unquoted (name : List Char) (arg post : List Char)
    (hname : name.map Char.toLower = "url(".toList)
    (harg : arg ≠ []) (hac : ∀ c ∈ arg, cssArgChar c = true) :
    matchCssUrl (name ++ (arg ++ ')' :: post)) =
      some ⟨name ++ (arg ++ [')']), arg⟩ := by
  obtain ⟨a0, args, rfl⟩ : ∃ a0 args, arg = a0 :: args := by
    cases arg with
    | nil => exact absurd rfl harg
    | cons a0 args => exact ⟨a0, args, rfl⟩
  have hlen : name.length = 4 := by
    have := congrArg List.length hname
    simpa using this
  have ha0 : cssArgChar a0 = true := hac a0 (List.mem_cons_self _ _)
  have ha0q : isQuote a0 = false := by
    have h := ha0
    unfold cssArgChar at h
    rw [Bool.not_eq_true'] at h
    exact (Bool.or_eq_false_iff.mp h).2
  unfold matchCssUrl
  rw [List.take_left' hlen, List.drop_left' hlen, if_pos (by exact hname)]
  simp only [List.cons_append, ha0q, Bool.false_eq_true, if_false]
  rw [show a0 :: (args ++ ')' :: post) = (a0 :: args) ++ ')' :: post from rfl,
      cssTail_bare name [] (a0 :: args) post harg hac]
  simp

theorem scanCss_rewrite_quoted (b : String) (name : List Char) (q1 q2 : Char)
    (arg post : List Char) (hname : name.map Char.toLower = "url(".toList)
    (hq1 : isQuote q1 = true) (hq2 : isQuote q2 = true)
    (harg : arg ≠ []) (hac : ∀ c ∈ arg, cssArgChar c = true)
    (hdata : "data:".toList.isPrefixOf arg = false) :
    scanCss b (name ++ q1 :: (arg ++ q2 :: ')' :: post)) =
      ("url(".toList ++ '"' :: ((proxyUrl ⟨arg⟩ b).toList ++ ['"', ')'])) ++ scanCss b post := by
  unfold scanCss
  have hshape : name ++ q1 :: (arg ++ q2 :: ')' :: post) =
      (name ++ q1 :: (arg ++ [q2, ')'])) ++ post := by simp
  rw [hshape]
  apply runScan_step
  · unfold cssStep
    rw [← hshape, matchCssUrl_quoted name q1 q2 arg post hname hq1 hq2 harg hac]
    simp only [hdata, Bool.false_eq_true, if_false]
  · simp

theorem scanCss_rewrite_unquoted (b : String) (name : List Char)
    (arg post : List Char) (hname : name.map Char.toLower = "url(".toList)
    (harg : arg ≠ []) (hac : ∀ c ∈ arg, cssArgChar c = true)
    (hdata : "data:".toList.isPrefixOf arg = false) :
    scanCss b (name ++ (arg ++ ')' :: post)) =
      ("url(".toList ++ '"' :: ((proxyUrl ⟨arg⟩ b).toList ++ ['"', ')'])) ++ scanCss b post := by
  unfold scanCss
  have hshape : name ++ (arg ++ ')' :: post) = (name ++ (arg ++ [')'])) ++ post := by simp
  rw [hshape]
  apply runScan_step
  · unfold cssStep
    rw [← hshape, matchCssUrl_unquoted name arg post hname harg hac]
    simp only [hdata, Bool.false_eq_true, if_false]
  · simp

theorem scanCss_data_quoted (b : String) (name : List Char) (q1 q2 : Char)
    (arg post : List Char) (hname : name.map Char.toLower = "url(".toList)
    (hq1 : isQuote q1 = true) (hq2 : isQuote q2 = true)
    (harg : arg ≠ []) (hac : ∀ c ∈ arg, cssArgChar c = true)
    (hdata : "data:".toList.isPrefixOf arg = true) :
    scanCss b (name ++ q1 :: (arg ++ q2 :: ')' :: post)) =
      (name ++ q1 :: (arg ++ [q2, ')'])) ++ scanCss b post := by
  unfold scanCss
  have hshape : name ++ q1 :: (arg ++ q2 :: ')' :: post) =
      (name ++ q1 :: (arg ++ [q2, ')'])) ++ post := by simp
  rw [hshape]
  apply runScan_step
  · unfold cssStep
    rw [← hshape, matchCssUrl_quoted name q1 q2 arg post hname hq1 hq2 harg hac]
    simp only [hdata, if_true]
  · simp

theorem scanCss_data_unquoted (b : String) (name : List Char)
    (arg post : List Char) (hname : name.map Char.toLower = "url(".toList)
    (harg : arg ≠ []) (hac : ∀ c ∈ arg, cssArgChar c = true)
    (hdata : "data:".toList.isPrefixOf arg = true) :
    scanCss b (name ++ (arg ++ ')' :: post)) =
      (name ++ (arg ++ [')'])) ++ scanCss b post := by
  unfold scanCss
  have hshape : name ++ (arg ++ ')' :: post) = (name ++ (arg ++ [')'])) ++ post := by simp
  rw [hshape]
  apply runScan_step
  · unfold cssStep
    rw [← hshape, matchCssUrl_unquoted name arg post hname harg hac]
    simp only [hdata, if_true]
  · simp

/-- C4 counterexample: a `#` fragment reference IS transformed by the CSS
rewriter, and a `data:` URL IS transformed by the `srcset` pass — the
exemption only exists in the `src`/`href` attribute pass (all three
prefixes) and in the CSS rewriter (only `data:`). -/
theorem cex_C4_exempt :
    rewriteCss "url(#f)" "https://e.com" ≠ "url(#f)" ∧
    (⟨scanSrcset "https://e.com" "srcset=\"data:x 1x\"".toList⟩ : String) ≠
      "srcset=\"data:x 1x\"" :=
  ⟨by decide, by decide⟩

/-- C4 (amended): references beginning with `data:`, `javascript:` or `#`
are left unchanged by the HTML rewriter's `src`/`href` attribute pass; the
`srcset` pass applies no such exemption (a `data:` candidate is rewritten);
and the CSS rewriter exempts only `data:` arguments (quoted or not), while
`#` arguments are rewritten. -/
theorem thm_C4_amended :
    (∀ (b : String) (name : List Char) (q1 q2 : Char) (url post : List Char),
      name.map Char.toLower = "src".toList ∨ name.map Char.toLower = "href".toList →
      isQuote q1 = true → isQuote q2 = true → url ≠ [] →
      (∀ c ∈ url, isQuote c = false) → exemptRef url = true →
      scanAttr b (name ++ '=' :: q1 :: (url ++ q2 :: post)) =
        (name ++ '=' :: q1 :: (url ++ [q2])) ++ scanAttr b post) ∧
    (∀ (b : String) (name : List Char) (q1 q2 : Char) (arg post : List Char),
      name.map Char.toLower = "url(".toList → isQuote q1 = true → isQuote q2 = true →
      arg ≠ [] → (∀ c ∈ arg, cssArgChar c = true) →
      "data:".toList.isPrefixOf arg = true →
      scanCss b (name ++ q1 :: (arg ++ q2 :: ')' :: post)) =
        (name ++ q1 :: (arg ++ [q2, ')'])) ++ scanCss b post) ∧
    (∀ (b : String) (name arg post : List Char),
      name.map Char.toLower = "url(".toList →
      arg ≠ [] → (∀ c ∈ arg, cssArgChar c = true) →
      "data:".toList.isPrefixOf arg = true →
      scanCss b (name ++ (arg ++ ')' :: post)) =
        (name ++ (arg ++ [')'])) ++ scanCss b post) ∧
    rewriteCss "url(#f)" "https://e.com" =
      "url(\"https://tv-proxy.shariflii.workers.dev/?url=https%3A%2F%2Fe.com%2F%23f\")" ∧
    (⟨scanSrcset "https://e.com" "srcset=\"data:x 1x\"".toList⟩ : String) =
      "srcset=\"https://tv-proxy.shariflii.workers.dev/?url=https%3A%2F%2Fe.com%2Fdata%3Ax 1x\"" := by
  refine ⟨?_, ?_, ?_, by decide, by decide⟩
  · intro b name q1 q2 url post hname hq1 hq2 hurl hunq hex
    exact scanAttr_exempt b name q1 q2 url post hname hq1 hq2 hurl hunq hex
  · intro b name q1 q2 arg post hname hq1 hq2 harg hac hdata
    exact scanCss_data_quoted b name q1 q2 arg post hname hq1 hq2 harg hac hdata
  · intro b name arg post hname harg hac hdata
    exact scanCss_data_unquoted b name arg post hname harg hac hdata

/-- Witness for C4 (amended): an exempt `href="#top"` attribute kept
verbatim, and `data:` CSS arguments kept verbatim in both quote styles. -/
theorem thm_C4_amended_witness :
    scanAttr "https://e.com" ("href".toList ++ '=' :: '"' :: ("#top".toList ++ '"' :: [])) =
      ("href".toList ++ '=' :: '"' :: ("#top".toList ++ ['"'])) ++ scanAttr "https://e.com" [] ∧
    scanCss "https://e.com"
        ("url(".toList ++ '"' :: ("data:image/png".toList ++ '"' :: ')' :: [])) =
      ("url(".toList ++ '"' :: ("data:image/png".toList ++ ['"', ')'])) ++
        scanCss "https://e.com" [] ∧
    scanCss "https://e.com" ("URL(".toList ++ ("data:,x".toList ++ ')' :: [])) =
      ("URL(".toList ++ ("data:,x".toList ++ [')'])) ++ scanCss "https://e.com" [] :=
  ⟨(thm_C4_amended.1 "https://e.com" "href".toList '"' '"' "#top".toList []
      (Or.inr (by decide)) (by decide) (by decide) (by decide)
      (by decide) (by decide)),
   (thm_C4_amended.2.1 "https://e.com" "url(".toList '"' '"' "data:image/png".toList []
      (by decide) (by decide) (by decide) (by decide) (by decide) (by decide)),
   (thm_C4_amended.2.2.1 "https://e.com" "URL(".toList "data:,x".toList []
      (by decide) (by decide) (by decide) (by decide))⟩

/-- C5: every `url(...)` token (argument optionally quoted, function name
case-insensitive) whose argument does not start with `data:` is rewritten
to `url("<ProxiedURL>")`, re-quoted with double quotes; and the concrete
example from the spec. -/
theorem thm_C5_css (css0 b0 : String) :
    rewriteCss css0 b0 = ⟨scanCss b0 css0.toList⟩ ∧
    (∀ (b : String) (name : List Char) (q1 q2 : Char) (arg post : List Char),
      name.map Char.toLower = "url(".toList → isQuote q1 = true → isQuote q2 = true →
      arg ≠ [] → (∀ c ∈ arg, cssArgChar c = true) →
      "data:".toList.isPrefixOf arg = false →
      scanCss b (name ++ q1 :: (arg ++ q2 :: ')' :: post)) =
        ("url(".toList ++ '"' :: ((proxyUrl ⟨arg⟩ b).toList ++ ['"', ')'])) ++
          scanCss b post) ∧
    (∀ (b : String) (name arg post : List Char),
      name.map Char.toLower = "url(".toList →
      arg ≠ [] → (∀ c ∈ arg, cssArgChar c = true) →
      "data:".toList.isPrefixOf arg = false →
      scanCss b (name ++ (arg ++ ')' :: post)) =
        ("url(".toList ++ '"' :: ((proxyUrl ⟨arg⟩ b).toList ++ ['"', ')'])) ++
          scanCss b post) ∧
    rewriteCss "background:url(/bg.png)" "https://e.com" =
      "background:url(\"https://tv-proxy.shariflii.workers.dev/?url=https%3A%2F%2Fe.com%2Fbg.png\")" := by
  refine ⟨rfl, ?_, ?_, by decide⟩
  · intro b name q1 q2 arg post hname hq1 hq2 harg hac hdata
    exact scanCss_rewrite_quoted b name q1 q2 arg post hname hq1 hq2 harg hac hdata
  · intro b name arg post hname harg hac hdata
    exact scanCss_rewrite_unquoted b name arg post hname harg hac hdata

/-- Witness for C5: a double-quoted and an unquoted token, each rewritten
and re-quoted with double quotes. -/
theorem thm_C5_css_witness :
    scanCss "https://e.com" ("url(".toList ++ '"' :: ("/a.png".toList ++ '"' :: ')' :: [])) =
      ("url(".toList ++ '"' ::
        ((proxyUrl ⟨"/a.png".toList⟩ "https://e.com").toList ++ ['"', ')'])) ++
        scanCss "https://e.com" [] ∧
    scanCss "https://e.com" ("Url(".toList ++ ("b.png".toList ++ ')' :: [])) =
      ("url(".toList ++ '"' ::
        ((proxyUrl ⟨"b.png".toList⟩ "https://e.com").toList ++ ['"', ')'])) ++
        scanCss "https://e.com" [] :=
  ⟨((thm_C5_css "x" "y").2.1 "https://e.com" "url(".toList '"' '"' "/a.png".toList []
      (by decide) (by decide) (by decide) (by decide) (by decide) (by decide)),
   ((thm_C5_css "x" "y").2.2.1 "https://e.com" "Url(".toList "b.png".toList []
      (by decide) (by decide) (by decide) (by decide))⟩

set_option maxRecDepth 4000 in
theorem unreserved_char_ok (bb : Nat) (h : uriUnreservedByte bb = true) :
    isWs (Char.ofNat bb) = false ∧ ¬ Char.ofNat bb = ',' := by
  have hlt : bb < 127 := by
    unfold uriUnreservedByte at h
    simp only [Bool.or_eq_true, Bool.and_eq_true, decide_eq_true_eq] at h
    omega
  have H : ∀ x : Fin 127, uriUnreservedByte x.val = true →
      isWs (Char.ofNat x.val) = false ∧ ¬ Char.ofNat x.val = ',' := by decide
  exact H ⟨bb, hlt⟩ h

theorem hexDigit_ok (k : Nat) (h : k < 16) :
    isWs (hexDigitChar k) = false ∧ ¬ hexDigitChar k = ',' := by
  have H : ∀ x : Fin 16, isWs (hexDigitChar x.val) = false ∧ ¬ hexDigitChar x.val = ',' := by
    decide
  exact H ⟨k, h⟩

theorem utf8Bytes_lt (c : Char) : ∀ bb ∈ utf8BytesOfChar c, bb < 256 := by
  have hval : c.toNat < 1114112 := by
    show c.val.toNat < 1114112
    rcases c.valid with h | h
    · omega
    · omega
  intro bb hbb
  have h64 : c.toNat % 64 < 64 := Nat.mod_lt _ (by omega)
  have h64' : (c.toNat / 64) % 64 < 64 := Nat.mod_lt _ (by omega)
  have h64'' : (c.toNat / 4096) % 64 < 64 := Nat.mod_lt _ (by omega)
  unfold utf8BytesOfChar at hbb
  split at hbb
  · simp only [List.mem_singleton] at hbb
    omega
  · split at hbb
    · have hd : c.toNat / 64 < 32 := Nat.div_lt_of_lt_mul (by omega)
      simp only [List.mem_cons, List.not_mem_nil, or_false] at hbb
      rcases hbb with h | h <;> omega
    · split at hbb
      · have hd : c.toNat / 4096 < 16 := Nat.div_lt_of_lt_mul (by omega)
        simp only [List.mem_cons, List.not_mem_nil, or_false] at hbb
        rcases hbb with h | h | h <;> omega
      · have hd : c.toNat / 262144 < 5 := Nat.div_lt_of_lt_mul (by omega)
        simp only [List.mem_cons, List.not_mem_nil, or_false] at hbb
        rcases hbb with h | h | h | h <;> omega

theorem encByte_ok (bb : Nat) (hlt : bb < 256) :
    ∀ c ∈ encByte bb, isWs c = false ∧ ¬ c = ',' := by
  intro c hc
  unfold encByte at hc
  split at hc
  · rw [List.mem_singleton] at hc
    subst hc
    exact unreserved_char_ok bb (by assumption)
  · simp only [List.mem_cons, List.not_mem_nil, or_false] at hc
    rcases hc with hc | hc | hc
    · subst hc
      exact ⟨by decide, by decide⟩
    · subst hc
      exact hexDigit_ok _ (by omega)
    · subst hc
      exact hexDigit_ok _ (by omega)

theorem encChars_ok (l : List Char) : ∀ c ∈ encChars l, isWs c = false ∧ ¬ c = ',' := by
  intro c hc
  unfold encChars at hc
  rw [List.mem_flatMap] at hc
  obtain ⟨a, _, hc⟩ := hc
  rw [List.mem_flatMap] at hc
  obtain ⟨bb, hbb, hc⟩ := hc
  exact encByte_ok bb (utf8Bytes_lt a bb hbb) c hc

theorem toList_append (a b : String) : (a ++ b).toList = a.toList ++ b.toList :=
  String.data_append a b

theorem proxyUrl_chars (r b : String) :
    ∀ c ∈ (proxyUrl r b).toList, isWs c = false ∧ ¬ c = ',' := by
  intro c hc
  have hshape : proxyUrl r b =
      PROXY_URL ++ "/?url=" ++ encodeURIComponent (resolveSpec r b) := rfl
  rw [hshape, toList_append, toList_append, List.mem_append, List.mem_append] at hc
  rcases hc with (hc | hc) | hc
  · have H : ∀ x ∈ PROXY_URL.toList, isWs x = false ∧ ¬ x = ',' := by decide
    exact H c hc
  · have H : ∀ x ∈ "/?url=".toList, isWs x = false ∧ ¬ x = ',' := by decide
    exact H c hc
  · exact encChars_ok _ c hc

theorem dropWhile_isWs_head (l : List Char)
    (h : ∀ c, l.head? = some c → isWs c = false) : l.dropWhile isWs = l := by
  cases l with
  | nil => rfl
  | cons a t =>
    rw [List.dropWhile_cons, h a rfl]
    simp

theorem jsTrim_eq_self_of_ends (l : List Char)
    (hh : ∀ c, l.head? = some c → isWs c = false)
    (hr : ∀ c, l.reverse.head? = some c → isWs c = false) : jsTrim l = l := by
  unfold jsTrim
  rw [dropWhile_isWs_head l hh, dropWhile_isWs_head l.reverse hr, List.reverse_reverse]

theorem jsTrim_sep (l₁ l₂ : List Char) (h₁ : l₁ ≠ []) (ha : ∀ c ∈ l₁, isWs c = false)
    (h₂ : l₂ ≠ []) (hb : ∀ c ∈ l₂, isWs c = false) :
    jsTrim (l₁ ++ ' ' :: l₂) = l₁ ++ ' ' :: l₂ := by
  apply jsTrim_eq_self_of_ends
  · intro c hc
    obtain ⟨x, t, rfl⟩ : ∃ x t, l₁ = x :: t := by
      cases l₁ with
      | nil => exact absurd rfl h₁
      | cons x t => exact ⟨x, t, rfl⟩
    rw [List.cons_append, List.head?_cons, Option.some_inj] at hc
    exact hc ▸ ha x (List.mem_cons_self x t)
  · intro c hc
    rw [List.head?_reverse] at hc
    have hg : (l₁ ++ ' ' :: l₂).getLast? = l₂.getLast? := by
      rw [List.getLast?_append]
      obtain ⟨z, w, rfl⟩ : ∃ z w, l₂ = z :: w := by
        cases l₂ with
        | nil => exact absurd rfl h₂
        | cons z w => exact ⟨z, w, rfl⟩
      rw [List.getLast?_cons_cons]
      cases hlz : (z :: w).getLast? with
      | none => exact absurd (List.getLast?_eq_none_iff.mp hlz) (by simp)
      | some y => rfl
    rw [hg, List.getLast?_eq_getLast_of_ne_nil h₂, Option.some_inj] at hc
    exact hc ▸ hb _ (List.getLast_mem h₂)

theorem jsTrim_all (l : List Char) (h : ∀ c ∈ l, isWs c = false) : jsTrim l = l := by
  apply jsTrim_eq_self_of_ends
  · intro c hc
    cases l with
    | nil => cases hc
    | cons a t =>
      rw [List.head?_cons, Option.some_inj] at hc
      exact hc ▸ h a (List.mem_cons_self a t)
  · intro c hc
    cases hrev : l.reverse with
    | nil => rw [hrev] at hc; cases hc
    | cons a t =>
      rw [hrev, List.head?_cons, Option.some_inj] at hc
      have : a ∈ l := by
        rw [← List.mem_reverse, hrev]
        exact List.mem_cons_self a t
      exact hc ▸ h a this

theorem jsTrim_append_space (l : List Char) (hne : l ≠ [])
    (h : ∀ c ∈ l, isWs c = false) : jsTrim (l ++ [' ']) = l := by
  obtain ⟨x, t, rfl⟩ : ∃ x t, l = x :: t := by
    cases l with
    | nil => exact absurd rfl hne
    | cons x t => exact ⟨x, t, rfl⟩
  unfold jsTrim
  rw [List.cons_append, List.dropWhile_cons,
      h x (List.mem_cons_self x t)]
  simp only [Bool.false_eq_true, if_false]
  rw [show (x :: (t ++ [' '])).reverse = ' ' :: (x :: t).reverse from by simp]
  rw [List.dropWhile_cons, show isWs ' ' = true from rfl]
  simp only [if_true]
  rw [dropWhile_isWs_head _ ?hrev, List.reverse_reverse]
  intro c hc
  rw [List.head?_reverse, List.getLast?_eq_getLast_of_ne_nil (List.cons_ne_nil x t),
      Option.some_inj] at hc
  exact hc ▸ h _ (List.getLast_mem (List.cons_ne_nil x t))

set_option maxHeartbeats 1600000 in
theorem splitWsRuns_single (d : List Char) (hne : d ≠ [])
    (hd : ∀ c ∈ d, isWs c = false) : splitWsRuns d = [d] := by
  induction d with
  | nil => exact absurd rfl hne
  | cons c t ih =>
    unfold splitWsRuns
    rw [hd c (List.mem_cons_self c t)]
    simp only [Bool.false_eq_true, if_false]
    cases t with
    | nil => rfl
    | cons d0 t' =>
      rw [ih (List.cons_ne_nil d0 t') (fun c' hc' => hd c' (List.mem_cons_of_mem c hc'))]

theorem splitWsRuns_pair (u d : List Char) (hu : ∀ c ∈ u, isWs c = false)
    (hdne : d ≠ []) (hd : ∀ c ∈ d, isWs c = false) :
    splitWsRuns (u ++ ' ' :: d) = [u, d] := by
  induction u with
  | nil =>
    obtain ⟨d0, t, rfl⟩ : ∃ d0 t, d = d0 :: t := by
      cases d with
      | nil => exact absurd rfl hdne
      | cons d0 t => exact ⟨d0, t, rfl⟩
    rw [List.nil_append]
    unfold splitWsRuns
    rw [show isWs ' ' = true from rfl]
    simp only [if_true]
    rw [hd d0 (List.mem_cons_self d0 t)]
    simp only [Bool.false_eq_true, if_false]
    rw [splitWsRuns_single (d0 :: t) (List.cons_ne_nil d0 t) hd]
  | cons x u' ih =>
    rw [List.cons_append]
    unfold splitWsRuns
    rw [hu x (List.mem_cons_self x u')]
    simp only [Bool.false_eq_true, if_false]
    rw [ih (fun c hc => hu c (List.mem_cons_of_mem x hc))]

theorem splitChar_ne_nil (sep : Char) (s : List Char) : splitChar sep s ≠ [] := by
  cases s with
  | nil => simp [splitChar]
  | cons c t =>
    unfold splitChar
    split
    · simp
    · split <;> simp

theorem splitChar_length (sep : Char) (s : List Char) :
    (splitChar sep s).length = s.count sep + 1 := by
  induction s with
  | nil => simp [splitChar]
  | cons c t ih =>
    unfold splitChar
    by_cases hc : c = sep
    · rw [if_pos hc]
      subst hc
      simp [ih, List.count_cons]
    · rw [if_neg hc]
      cases hsp : splitChar sep t with
      | nil => exact absurd hsp (splitChar_ne_nil sep t)
      | cons p ps =>
        rw [hsp] at ih
        simp only [List.length_cons] at ih ⊢
        rw [List.count_cons, if_neg (by simpa using hc)]
        omega

theorem splitChar_no_sep (sep : Char) (s : List Char) :
    ∀ p ∈ splitChar sep s, sep ∉ p := by
  induction s with
  | nil =>
    intro p hp
    simp [splitChar] at hp
    subst hp
    exact List.not_mem_nil sep
  | cons c t ih =>
    intro p hp
    unfold splitChar at hp
    by_cases hc : c = sep
    · rw [if_pos hc] at hp
      rcases List.mem_cons.mp hp with rfl | hp
      · simp
      · exact ih p hp
    · rw [if_neg hc] at hp
      cases hsp : splitChar sep t with
      | nil => exact absurd hsp (splitChar_ne_nil sep t)
      | cons q qs =>
        rw [hsp] at hp
        rcases List.mem_cons.mp hp with rfl | hp
        · intro hmem
          rcases List.mem_cons.mp hmem with h | h
          · exact hc h.symm
          · exact ih q (hsp ▸ List.mem_cons_self q qs) h
        · exact ih p (hsp ▸ List.mem_cons_of_mem q hp)

theorem joinSep_count (parts : List (List Char))
    (hp : ∀ p ∈ parts, ∀ c ∈ p, ¬ c = ',') :
    (joinSep ", ".toList parts).count ',' = parts.length - 1 := by
  induction parts with
  | nil => simp [joinSep]
  | cons x tail ih =>
    cases tail with
    | nil =>
      show x.count ',' = 0
      exact List.count_eq_zero.mpr (fun hmem => hp x (List.mem_cons_self x []) ',' hmem rfl)
    | cons y t =>
      show (x ++ ", ".toList ++ joinSep ", ".toList (y :: t)).count ',' = _
      rw [List.count_append, List.count_append,
          ih (fun p hpmem => hp p (List.mem_cons_of_mem x hpmem)),
          List.count_eq_zero.mpr
            (fun hmem => hp x (List.mem_cons_self x (y :: t)) ',' hmem rfl),
          show (", ".toList.count ',') = 1 from rfl]
      simp only [List.length_cons]
      omega

theorem splitWsRuns_ne_nil (l : List Char) : splitWsRuns l ≠ [] := by
  induction l with
  | nil => simp [splitWsRuns]
  | cons a t ih =>
    unfold splitWsRuns
    by_cases ha : isWs a
    · rw [if_pos ha]
      cases t with
      | nil => simp
      | cons d t' =>
        show (if isWs d = true then splitWsRuns (d :: t')
            else [] :: splitWsRuns (d :: t')) ≠ []
        by_cases hd : isWs d
        · rw [if_pos hd]
          exact ih
        · rw [if_neg hd]
          simp
    · rw [if_neg ha]
      cases hsp : splitWsRuns t with
      | nil => simp
      | cons q qs => simp

theorem mem_of_jsTrim {c : Char} {l : List Char} (h : c ∈ jsTrim l) : c ∈ l := by
  unfold jsTrim at h
  rw [List.mem_reverse] at h
  have h2 := (List.dropWhile_sublist isWs).subset h
  rw [List.mem_reverse] at h2
  exact (List.dropWhile_sublist isWs).subset h2

theorem mem_of_splitWsRuns (l : List Char) :
    ∀ p ∈ splitWsRuns l, ∀ c ∈ p, c ∈ l := by
  induction l with
  | nil =>
    intro p hp c hc
    simp [splitWsRuns] at hp
    subst hp
    cases hc
  | cons a t ih =>
    intro p hp c hc
    unfold splitWsRuns at hp
    by_cases ha : isWs a
    · rw [if_pos ha] at hp
      cases t with
      | nil =>
        simp at hp
        rcases hp with rfl | rfl <;> cases hc
      | cons d t' =>
        have hp' : p ∈ (if isWs d = true then splitWsRuns (d :: t')
            else [] :: splitWsRuns (d :: t')) := hp
        by_cases hd : isWs d
        · rw [if_pos hd] at hp'
          exact List.mem_cons_of_mem a (ih p hp' c hc)
        · rw [if_neg hd] at hp'
          rcases List.mem_cons.mp hp' with rfl | hp'
          · cases hc
          · exact List.mem_cons_of_mem a (ih p hp' c hc)
    · rw [if_neg ha] at hp
      cases hsp : splitWsRuns t with
      | nil => exact absurd hsp (splitWsRuns_ne_nil t)
      | cons q qs =>
        rw [hsp] at hp
        rcases List.mem_cons.mp hp with rfl | hp
        · rcases List.mem_cons.mp hc with rfl | hc
          · exact List.mem_cons_self c t
          · exact List.mem_cons_of_mem a (ih q (hsp ▸ List.mem_cons_self q qs) c hc)
        · exact List.mem_cons_of_mem a (ih p (hsp ▸ List.mem_cons_of_mem q hp) c hc)

theorem proxyUrl_ne_nil (r b : String) : (proxyUrl r b).toList ≠ [] := by
  have hshape : proxyUrl r b =
      PROXY_URL ++ "/?url=" ++ encodeURIComponent (resolveSpec r b) := rfl
  rw [hshape, toList_append, toList_append]
  intro h
  rw [List.append_eq_nil, List.append_eq_nil] at h
  exact absurd h.1.1 (by decide)

theorem srcsetCandidate_pair (b : String) (u d : List Char) (hu : u ≠ [])
    (hunw : ∀ c ∈ u, isWs c = false) (hdne : d ≠ [])
    (hdnw : ∀ c ∈ d, isWs c = false) :
    srcsetCandidate b (u ++ ' ' :: d) = (proxyUrl ⟨u⟩ b).toList ++ ' ' :: d := by
  simp only [srcsetCandidate]
  rw [jsTrim_sep u d hu hunw hdne hdnw, splitWsRuns_pair u d hunw hdne hdnw]
  simp only [List.headD_cons]
  rw [show ((([u, d] : List (List Char)).get? 1).getD []) = d from rfl]
  exact jsTrim_sep _ d (proxyUrl_ne_nil ⟨u⟩ b)
    (fun c hc => (proxyUrl_chars ⟨u⟩ b c hc).1) hdne hdnw

theorem srcsetCandidate_solo (b : String) (u : List Char) (hu : u ≠ [])
    (hunw : ∀ c ∈ u, isWs c = false) :
    srcsetCandidate b u = (proxyUrl ⟨u⟩ b).toList := by
  simp only [srcsetCandidate]
  rw [jsTrim_all u hunw, splitWsRuns_single u hu hunw]
  simp only [List.headD_cons]
  rw [show ((([u] : List (List Char)).get? 1).getD []) = [] from rfl]
  exact jsTrim_append_space _ (proxyUrl_ne_nil ⟨u⟩ b)
    (fun c hc => (proxyUrl_chars ⟨u⟩ b c hc).1)

theorem srcsetCandidate_no_comma (b : String) (part : List Char)
    (hp : ∀ c ∈ part, ¬ c = ',') : ∀ c ∈ srcsetCandidate b part, ¬ c = ',' := by
  intro c hc
  simp only [srcsetCandidate] at hc
  have hc' := mem_of_jsTrim hc
  rw [List.mem_append] at hc'
  rcases hc' with hc' | hc'
  · exact (proxyUrl_chars _ b c hc').2
  · rcases List.mem_cons.mp hc' with rfl | hc'
    · decide
    · cases hq : (splitWsRuns (jsTrim part)).get? 1 with
      | none =>
        rw [hq] at hc'
        cases hc'
      | some dd =>
        rw [hq] at hc'
        have hdd : dd ∈ splitWsRuns (jsTrim part) := List.get?_mem hq
        have hmem : c ∈ jsTrim part :=
          mem_of_splitWsRuns _ dd hdd c (by simpa using hc')
        exact hp c (mem_of_jsTrim hmem)

theorem srcsetRewrite_comma (v b : String) :
    (srcsetRewrite v b).toList.count ',' = v.toList.count ',' := by
  show (joinSep ", ".toList
    ((splitChar ',' v.toList).map (srcsetCandidate b))).count ',' = _
  rw [joinSep_count]
  · rw [List.length_map, splitChar_length]
    omega
  · intro p hp c hc
    rcases List.mem_map.mp hp with ⟨part, hpart, rfl⟩
    refine srcsetCandidate_no_comma b part ?_ c hc
    intro c' hc' hceq
    exact splitChar_no_sep ',' v.toList part hpart (hceq ▸ hc')

/-- C6: the `srcset` rewrite splits the attribute value on commas, splits
each candidate on whitespace into a URL and an optional descriptor,
resolves the URL through the URL Resolver keeping the descriptor, preserves
the comma-count, rejoins with `", "`, and maps the spec's example to the
claimed output. -/
theorem thm_C6_srcset (v0 b0 : String) :
    srcsetRewrite v0 b0 =
      ⟨joinSep ", ".toList ((splitChar ',' v0.toList).map (srcsetCandidate b0))⟩ ∧
    (∀ (b : String) (u d : List Char), u ≠ [] → (∀ c ∈ u, isWs c = false) →
      d ≠ [] → (∀ c ∈ d, isWs c = false) →
      srcsetCandidate b (u ++ ' ' :: d) = (proxyUrl ⟨u⟩ b).toList ++ ' ' :: d) ∧
    (∀ (b : String) (u : List Char), u ≠ [] → (∀ c ∈ u, isWs c = false) →
      srcsetCandidate b u = (proxyUrl ⟨u⟩ b).toList) ∧
    (∀ v b : String, (srcsetRewrite v b).toList.count ',' = v.toList.count ',') ∧
    srcsetRewrite "a.png 1x, b.png 2x" "https://e.com" =
      "https://tv-proxy.shariflii.workers.dev/?url=https%3A%2F%2Fe.com%2Fa.png 1x, https://tv-proxy.shariflii.workers.dev/?url=https%3A%2F%2Fe.com%2Fb.png 2x" := by
  refine ⟨rfl, ?_, ?_, srcsetRewrite_comma, by decide⟩
  · intro b u d hu hunw hdne hdnw
    exact srcsetCandidate_pair b u d hu hunw hdne hdnw
  · intro b u hu hunw
    exact srcsetCandidate_solo b u hu hunw

/-- Witness for C6: a candidate with a density descriptor keeps it, a bare
candidate gets only the proxied URL, and the comma-count is preserved on a
concrete two-candidate list. -/
theorem thm_C6_srcset_witness :
    srcsetCandidate "https://e.com" ("a.png".toList ++ ' ' :: "2x".toList) =
      (proxyUrl ⟨"a.png".toList⟩ "https://e.com").toList ++ ' ' :: "2x".toList ∧
    srcsetCandidate "https://e.com" "b.png".toList =
      (proxyUrl ⟨"b.png".toList⟩ "https://e.com").toList ∧
    (srcsetRewrite "a.png 1x, b.png 2x" "https://e.com").toList.count ',' =
      "a.png 1x, b.png 2x".toList.count ',' :=
  ⟨(thm_C6_srcset "x" "y").2.1 "https://e.com" "a.png".toList "2x".toList
     (by decide) (by decide) (by decide) (by decide),
   (thm_C6_srcset "x" "y").2.2.1 "https://e.com" "b.png".toList (by decide) (by decide),
   (thm_C6_srcset "x" "y").2.2.2.1 "a.png 1x, b.png 2x" "https://e.com"⟩
